import Mathlib

/-!
Verification of the naive string-search visualizer (`Lab3.py`).

The program has three parts:
* `naive_search_steps` — a pure generator producing the full trace of the
  naive string-matching algorithm as a list of step records;
* rendering helpers (`render_visual`, `status_text`) assigning one highlight
  class to every grid cell;
* a small session state machine driven by the Start / Next Step buttons.

We embed each part shallowly: strings become `List Char`, Python's
`None / False / True` tri-state `match` field becomes `Option Bool`, and the
Streamlit session dictionary becomes a `Session` structure.  The Python
identifier `match` is a Lean keyword, so the field is named `matchv`.
-/

namespace NaiveSearch

/-- One trace step, mirroring the dict built by `naive_search_steps`:
keys `text_idx`, `pattern_idx`, `shift`, `match` (here `matchv`),
`found_indices`. -/
structure Step where
  text_idx : Nat
  pattern_idx : Nat
  shift : Nat
  matchv : Option Bool
  found_indices : List Nat
deriving Repr, DecidableEq

/-- The "before comparison" step appended at lines 27-33 of the source. -/
def pendingStep (i j : Nat) : Step :=
  ⟨i + j, j, i, none, []⟩

/-- The mismatch step appended at lines 36-42 of the source. -/
def mismatchStep (i j : Nat) : Step :=
  ⟨i + j, j, i, some false, []⟩

/-- The full-match step appended at lines 46-52 of the source
(`text_idx = i + m - 1`, `pattern_idx = m - 1`, `found_indices = [i]`). -/
def fullMatchStep (i m : Nat) : Step :=
  ⟨i + m - 1, m - 1, i, some true, [i]⟩

/-- The inner `for j in range(m)` loop of `naive_search_steps` for the shift
`i`, starting at offset `j` with `fuel` iterations remaining
(`fuel = m - j`).  Each iteration appends the pending step, compares
`text[i+j]` with `pattern[j]`, and on mismatch appends the mismatch step and
breaks; if the loop ends without a break (`fuel = 0`), the `for`/`else`
branch appends the single full-match step. -/
def scanAux (text pattern : List Char) (i : Nat) : Nat → Nat → List Step
  | _, 0 => [fullMatchStep i pattern.length]
  | j, fuel + 1 =>
    if text.getD (i + j) ' ' ≠ pattern.getD j ' ' then
      [pendingStep i j, mismatchStep i j]
    else
      pendingStep i j :: scanAux text pattern i (j + 1) fuel

/-- All steps emitted while scanning shift `i`. -/
def scanShift (text pattern : List Char) (i : Nat) : List Step :=
  scanAux text pattern i 0 pattern.length

/-- The generator `naive_search_steps` (source lines 7-53): returns `[]` when
`m == 0 or n < m`, otherwise the concatenation of the per-shift traces for
`i` in `range(n - m + 1)`. -/
def naive_search_steps (text pattern : List Char) : List Step :=
  if pattern.length = 0 ∨ text.length < pattern.length then []
  else (List.range (text.length - pattern.length + 1)).flatMap
    (fun i => scanShift text pattern i)

/-! ### Reference trace, written from the spec's words (for claim C1)

The spec describes each shift's sub-trace by its first mismatching offset:
a `Pending` step for every offset up to and including the first mismatch,
then the `Mismatch` step; or, when no offset mismatches, `Pending` steps for
all offsets followed by one `FullMatch` step. -/

/-- The first offset `j` (if any) at which `text[i+j] != pattern[j]`. -/
def firstMismatch (text pattern : List Char) (i : Nat) : Option Nat :=
  (List.range pattern.length).find?
    (fun j => text.getD (i + j) ' ' != pattern.getD j ' ')

/-- Reference sub-trace for one shift, per the spec's words. -/
def specShiftTrace (text pattern : List Char) (i : Nat) : List Step :=
  match firstMismatch text pattern i with
  | some j0 => (List.range (j0 + 1)).map (pendingStep i) ++ [mismatchStep i j0]
  | none =>
    (List.range pattern.length).map (pendingStep i)
      ++ [fullMatchStep i pattern.length]

/-- Reference trace of the whole naive algorithm, per the spec's words:
shifts `0 .. n - m` in increasing order. -/
def specTrace (text pattern : List Char) : List Step :=
  (List.range (text.length - pattern.length + 1)).flatMap
    (specShiftTrace text pattern)

/-- Spec-side notion of an occurrence of `pattern` at index `i` of `text`
(claim C2): the length-`m` slice of `text` starting at `i` equals
`pattern`. -/
def occursAt (text pattern : List Char) (i : Nat) : Bool :=
  decide ((text.drop i).take pattern.length = pattern)

/-! ### Generalization of the reference sub-trace used to prove C1 -/

/-- The sub-trace `specShiftTrace` generalized to start at offset `j`. -/
def specScanFrom (text pattern : List Char) (i j : Nat) : List Step :=
  match (List.range' j (pattern.length - j)).find?
      (fun j' => text.getD (i + j') ' ' != pattern.getD j' ' ') with
  | some j0 =>
    (List.range' j (j0 + 1 - j)).map (pendingStep i) ++ [mismatchStep i j0]
  | none =>
    (List.range' j (pattern.length - j)).map (pendingStep i)
      ++ [fullMatchStep i pattern.length]

/-! ### Session state machine (init_state, Start Search, Next Step) -/

/-- The Streamlit session keys set by `init_state` and mutated by the button
handlers: `steps`, `step_idx` (`none` = not started, `some (-1)` = initial
layout, `some k` with `k ≥ 0` = inside `steps`), `found_indices`,
`started`, `complete`.  The text/pattern input fields are modelled as the
handlers' arguments. -/
structure Session where
  steps : List Step
  step_idx : Option Int
  found_indices : List Nat
  started : Bool
  complete : Bool
deriving Repr, DecidableEq

/-- The session as produced by `init_state` (source lines 59-66) before any
search. -/
def initSession : Session :=
  ⟨[], none, [], false, false⟩

/-- Start Search handler (source lines 267-281): validates the inputs; on
failure shows an error (`some msg`) and leaves the session unchanged, on
success installs the generated steps, clears `found_indices`, and puts the
cursor at the initial layout (`-1`). -/
def startSearch (s : Session) (text pattern : List Char) :
    Session × Option String :=
  if text.isEmpty || pattern.isEmpty then
    (s, some "Text and Pattern cannot be empty.")
  else if pattern.length > text.length then
    (s, some "Pattern cannot be longer than the text.")
  else
    ({ steps := naive_search_steps text pattern,
       found_indices := [],
       step_idx := some (-1),
       started := true,
       complete := false }, none)

/-- Next Step handler (source lines 283-297).  The button is disabled (no
transition possible) unless the session is started and not complete.
Otherwise, while the cursor is below the last step it advances one step,
extending `found_indices` with the newly entered step's `found_indices`
when that step is a full match with a non-empty list; once the cursor sits
on the last step, a further press only sets `complete`. -/
def nextStep (s : Session) : Session :=
  if !s.started || s.complete then s
  else
    match s.step_idx with
    | none => s
    | some idx =>
      if idx < (s.steps.length : Int) - 1 then
        let step := s.steps.getD (idx + 1).toNat (pendingStep 0 0)
        if step.matchv == some true && !step.found_indices.isEmpty then
          { s with step_idx := some (idx + 1),
                   found_indices := s.found_indices ++ step.found_indices }
        else
          { s with step_idx := some (idx + 1) }
      else
        { s with complete := true }

/-- The completion summary block (source lines 323-338): shown only when the
session is started, the cursor is at or past the last step, and the extra
acknowledging press has set `complete`; `none` models "no summary shown". -/
def completionSummary (s : Session) : Option String :=
  if !s.started then none
  else
    match s.step_idx with
    | none => none
    | some idx =>
      if idx ≥ (s.steps.length : Int) - 1 then
        if !s.complete then none
        else if !s.found_indices.isEmpty then
          some ("Search complete. Pattern found at indices: "
            ++ toString s.found_indices)
        else some "Search complete. Pattern not found."
      else none

/-- The `found_indices` accumulated by the Next Step handler over a prefix
of the step list: the concatenation of `found_indices` of those steps whose
`match` is `True` and whose list is non-empty (the handler's guard). -/
def collectFound (l : List Step) : List Nat :=
  l.flatMap (fun st =>
    if st.matchv == some true && !st.found_indices.isEmpty
    then st.found_indices else [])

/-- A concrete mid-run session used to witness the completion behaviour:
the trace of `text = "AB"`, `pattern = "B"` has four steps and the cursor
sits on the last one. -/
def demoSession : Session :=
  { steps := naive_search_steps "AB".data "B".data,
    step_idx := some 3,
    found_indices := [1],
    started := true,
    complete := false }

/-! ### Rendering (`render_visual`, source lines 135-229) -/

/-- The step details extracted at the top of `render_visual`
(source lines 148-160): when no step is given, `shift = 0` and the index
fields are Python `None` (modelled by `none`). -/
structure RenderInfo where
  shift : Nat
  match_status : Option Bool
  text_idx : Option Nat
  pattern_idx : Option Nat
  step_found : List Nat
deriving Repr, DecidableEq

def renderInfo (step : Option Step) : RenderInfo :=
  match step with
  | none => ⟨0, none, none, none, []⟩
  | some st =>
    ⟨st.shift, st.matchv, some st.text_idx, some st.pattern_idx,
      st.found_indices⟩

/-- Membership in `previously_found_positions` (source lines 163-166): the
set `{fi + k : fi ∈ found_indices_so_far, k < m}`. -/
def prevFoundPos (found_indices_so_far : List Nat) (m idx : Nat) : Bool :=
  found_indices_so_far.any (fun fi =>
    (List.range m).any (fun k => idx == fi + k))

/-- Membership in `current_match_positions` (source lines 170-174):
populated only when the current step is a full match with non-empty
`found_indices`, as `{fi + k : k < m}` for `fi = step_found[0]`. -/
def currentMatchPos (info : RenderInfo) (m idx : Nat) : Bool :=
  (info.match_status == some true && !info.step_found.isEmpty)
    && (List.range m).any (fun k => idx == info.step_found.getD 0 0 + k)

/-- CSS classes of the pattern box at local offset `i`
(source lines 189-203); the box is only drawn when its column
`shift + i + 1` lies in `[1, n]`. -/
def patternCellClasses (info : RenderInfo) (i : Nat) : List String :=
  if info.match_status == none && some i == info.pattern_idx then
    ["char", "comparing"]
  else if info.match_status == some false && some i == info.pattern_idx then
    ["char", "mismatch"]
  else if info.match_status == some true then
    ["char", "match"]
  else
    ["char"]

/-- CSS classes of the text box at index `i` (source lines 206-217): start
from `["char"]`, append `"found"` for previously-found positions, then the
`if`/`elif` chain replaces the class list outright for the current
comparison cell or the current full match. -/
def textCellClasses (info : RenderInfo) (found_indices_so_far : List Nat)
    (m i : Nat) : List String :=
  let base := if prevFoundPos found_indices_so_far m i then ["char", "found"]
    else ["char"]
  if info.match_status == none && some i == info.text_idx then
    ["char", "comparing"]
  else if info.match_status == some false && some i == info.text_idx then
    ["char", "mismatch"]
  else if info.match_status == some true && currentMatchPos info m i then
    ["char", "match"]
  else
    base

/-- The status line `status_text` (source lines 232-245); the full-match branch reads
`found_indices[0]`, modelled by `getD 0 0`. -/
def status_text (step : Option Step) (found_indices : List Nat)
    (pattern_len : Nat) : String :=
  match step with
  | none => "Ready. Press Next Step to begin comparison."
  | some st =>
    match st.matchv with
    | none =>
      "Shifting pattern by " ++ toString st.shift ++ ". Comparing pattern["
        ++ toString st.pattern_idx ++ "] with text[" ++ toString st.text_idx
        ++ "]."
    | some false =>
      "Mismatch at text[" ++ toString st.text_idx ++ "] and pattern["
        ++ toString st.pattern_idx ++ "]. Shifting pattern."
    | some true =>
      "Pattern found at index " ++ toString (st.found_indices.getD 0 0)
        ++ "! Press Next Step to continue search."

/-! ### Spec-side highlighting policy (for claim C8) -/

/-- The highlight classes named by the spec's presentation policy. -/
inductive Highlight
  | default
  | comparing
  | mismatchH
  | matchH
  | found
deriving Repr, DecidableEq

/-- Spec's highlight for the pattern cell at local offset `i`: `Comparing`
(`Pending`) or `Mismatch` exactly at `pattern_index`, `Match` for every
pattern cell on a full match, default otherwise. -/
def specPatternHighlight (st : Step) (i : Nat) : Highlight :=
  match st.matchv with
  | none => if i = st.pattern_idx then .comparing else .default
  | some false => if i = st.pattern_idx then .mismatchH else .default
  | some true => .matchH

/-- Spec's highlight for the text cell at index `i`: the cell at
`text_index` is `Comparing`/`Mismatch`, the just-discovered match's cells
are `Match` (overriding `Found`), cells of previously found matches are
`Found`, all else default. -/
def specTextHighlight (st : Step) (found_so_far : List Nat) (m i : Nat) :
    Highlight :=
  if st.matchv = none ∧ i = st.text_idx then .comparing
  else if st.matchv = some false ∧ i = st.text_idx then .mismatchH
  else if st.matchv = some true ∧ ∃ f ∈ st.found_indices, f ≤ i ∧ i < f + m
    then .matchH
  else if ∃ f ∈ found_so_far, f ≤ i ∧ i < f + m then .found
  else .default

/-- CSS class list corresponding to one highlight. -/
def hlClasses : Highlight → List String
  | .default => ["char"]
  | .comparing => ["char", "comparing"]
  | .mismatchH => ["char", "mismatch"]
  | .matchH => ["char", "match"]
  | .found => ["char", "found"]

/-! ### The inner loop agrees with the spec's first-mismatch description -/

theorem specScanFrom_terminal (text pattern : List Char) (i : Nat) :
    specScanFrom text pattern i pattern.length = [fullMatchStep i pattern.length] := by
  simp [specScanFrom]

theorem specScanFrom_mismatch (text pattern : List Char) (i j : Nat)
    (hjlt : j < pattern.length)
    (hne : text.getD (i + j) ' ' ≠ pattern.getD j ' ') :
    specScanFrom text pattern i j = [pendingStep i j, mismatchStep i j] := by
  have hrange : List.range' j (pattern.length - j) =
      j :: List.range' (j + 1) (pattern.length - (j + 1)) := by
    have h : pattern.length - j = (pattern.length - (j + 1)) + 1 := by omega
    rw [h, List.range'_succ]
  have h1 : j + 1 - j = 1 := by omega
  rw [specScanFrom, hrange, List.find?_cons_of_pos]
  · simp [h1]
  · exact bne_iff_ne.mpr hne

theorem specScanFrom_cons (text pattern : List Char) (i j : Nat)
    (hjlt : j < pattern.length)
    (heq : text.getD (i + j) ' ' = pattern.getD j ' ') :
    specScanFrom text pattern i j =
      pendingStep i j :: specScanFrom text pattern i (j + 1) := by
  have hrange : List.range' j (pattern.length - j) =
      j :: List.range' (j + 1) (pattern.length - (j + 1)) := by
    have h : pattern.length - j = (pattern.length - (j + 1)) + 1 := by omega
    rw [h, List.range'_succ]
  rw [specScanFrom, specScanFrom, hrange, List.find?_cons_of_neg]
  · cases hfind : (List.range' (j + 1) (pattern.length - (j + 1))).find?
        (fun j' => text.getD (i + j') ' ' != pattern.getD j' ' ') with
    | none => simp
    | some j0 =>
      have hmem : j0 ∈ List.range' (j + 1) (pattern.length - (j + 1)) :=
        List.mem_of_find?_eq_some hfind
      obtain ⟨d, hd, hdm⟩ := List.mem_range'.mp hmem
      have hsub : j0 + 1 - j = (j0 - j) + 1 := by omega
      have hsub2 : j0 + 1 - (j + 1) = j0 - j := by omega
      simp [hsub, hsub2, List.range'_succ]
  · intro hcon
    exact (bne_iff_ne.mp hcon) heq

theorem scanAux_eq_specScanFrom (text pattern : List Char) (i : Nat) :
    ∀ fuel j, fuel = pattern.length - j → j ≤ pattern.length →
      scanAux text pattern i j fuel = specScanFrom text pattern i j := by
  intro fuel
  induction fuel with
  | zero =>
    intro j hfuel hj
    have hj' : j = pattern.length := by omega
    subst hj'
    rw [scanAux, specScanFrom_terminal]
  | succ fuel ih =>
    intro j hfuel hj
    have hjlt : j < pattern.length := by omega
    by_cases hcmp : text.getD (i + j) ' ' ≠ pattern.getD j ' '
    · rw [scanAux, if_pos hcmp, specScanFrom_mismatch text pattern i j hjlt hcmp]
    · push_neg at hcmp
      rw [scanAux, if_neg (by simpa using hcmp),
        specScanFrom_cons text pattern i j hjlt hcmp,
        ih (j + 1) (by omega) (by omega)]

theorem specShiftTrace_eq_specScanFrom (text pattern : List Char) (i : Nat) :
    specShiftTrace text pattern i = specScanFrom text pattern i 0 := by
  rw [specShiftTrace, firstMismatch, specScanFrom, Nat.sub_zero,
    ← List.range_eq_range']
  cases hfind : (List.range pattern.length).find?
      (fun j => text.getD (i + j) ' ' != pattern.getD j ' ') with
  | none => simp
  | some j0 => simp [List.range_eq_range']

theorem scanShift_eq_specShiftTrace (text pattern : List Char) (i : Nat) :
    scanShift text pattern i = specShiftTrace text pattern i := by
  rw [scanShift,
    scanAux_eq_specScanFrom text pattern i pattern.length 0 (by omega) (by omega),
    specShiftTrace_eq_specScanFrom]

/-- Claim C1: For every text and pattern with `1 ≤ len(pattern) ≤ len(text)`,
the sequence returned by `naive_search_steps` equals the reference trace of
the naive algorithm described by the spec: for each shift `i` from `0` to
`len(text) - len(pattern)` in increasing order, `Pending` steps at
`(i+j, j, i)` for increasing `j`, a `Mismatch` step at the first unequal
offset which ends the shift, and otherwise exactly one `FullMatch` step at
`(i + m - 1, m - 1, i)` carrying `found_indices = [i]`; nothing else, in
exactly this order. -/
theorem naive_search_steps_eq_specTrace (text pattern : List Char)
    (h1 : 1 ≤ pattern.length) (h2 : pattern.length ≤ text.length) :
    naive_search_steps text pattern = specTrace text pattern := by
  rw [naive_search_steps, if_neg (by omega), specTrace]
  rw [show (fun i => scanShift text pattern i) = specShiftTrace text pattern from
    funext fun i => scanShift_eq_specShiftTrace text pattern i]

/-- Witness for C1 at `text = "AB"`, `pattern = "B"`. -/
theorem naive_search_steps_eq_specTrace_witness :
    1 ≤ ("B".data).length ∧ ("B".data).length ≤ ("AB".data).length ∧
      naive_search_steps "AB".data "B".data = specTrace "AB".data "B".data :=
  ⟨by decide, by decide,
    naive_search_steps_eq_specTrace "AB".data "B".data (by decide) (by decide)⟩

/-! ### Full-match steps and occurrences (C2, C10) -/

theorem slice_eq_iff (text pattern : List Char) (i : Nat)
    (hle : i + pattern.length ≤ text.length) :
    ((text.drop i).take pattern.length = pattern)
      ↔ ∀ j, j < pattern.length → text.getD (i + j) ' ' = pattern.getD j ' ' := by
  constructor
  · intro h j hj
    have h1 : ((text.drop i).take pattern.length)[j]? = pattern[j]? := by rw [h]
    rw [List.getElem?_take_of_lt hj, List.getElem?_drop] at h1
    simp [h1]
  · intro h
    apply List.ext_getElem?
    intro k
    by_cases hk : k < pattern.length
    · rw [List.getElem?_take_of_lt hk, List.getElem?_drop]
      have h2 := h k hk
      have hik : i + k < text.length := by omega
      rw [List.getD_eq_getElem?_getD, List.getD_eq_getElem?_getD,
        List.getElem?_eq_getElem hik, List.getElem?_eq_getElem hk] at h2
      rw [List.getElem?_eq_getElem hik, List.getElem?_eq_getElem hk]
      simpa using h2
    · push_neg at hk
      have e1 : ((text.drop i).take pattern.length)[k]? = none :=
        List.getElem?_eq_none
          (by simp only [List.length_take, List.length_drop]; omega)
      have e2 : pattern[k]? = none := List.getElem?_eq_none hk
      rw [e1, e2]

theorem firstMismatch_eq_none_iff (text pattern : List Char) (i : Nat)
    (hle : i + pattern.length ≤ text.length) :
    (firstMismatch text pattern i = none) ↔ occursAt text pattern i = true := by
  rw [firstMismatch, occursAt, decide_eq_true_iff, slice_eq_iff text pattern i hle,
    List.find?_eq_none]
  constructor
  · intro h j hj
    have hx := h j (List.mem_range.mpr hj)
    simpa only [bne_iff_ne, ne_eq, not_not] using hx
  · intro h j hj
    have hjm := List.mem_range.mp hj
    simp only [bne_iff_ne, ne_eq, not_not]
    exact h j hjm

theorem filter_fullMatch_map_pending (i : Nat) (l : List Nat) :
    (l.map (pendingStep i)).filter (fun s => s.matchv == some true) = [] := by
  induction l with
  | nil => rfl
  | cons a l ih =>
    simp [pendingStep, List.filter_cons,
      show ((none : Option Bool) == some true) = false from rfl, ih]

theorem filter_fullMatch_specShiftTrace (text pattern : List Char) (i : Nat) :
    (specShiftTrace text pattern i).filter (fun s => s.matchv == some true)
      = if firstMismatch text pattern i = none
        then [fullMatchStep i pattern.length] else [] := by
  rw [specShiftTrace]
  cases hf : firstMismatch text pattern i with
  | some j0 =>
    rw [if_neg (by simp)]
    simp [List.filter_append, filter_fullMatch_map_pending, List.filter_cons,
      mismatchStep, show ((some false : Option Bool) == some true) = false from rfl]
  | none =>
    rw [if_pos rfl]
    simp [List.filter_append, filter_fullMatch_map_pending, List.filter_cons,
      fullMatchStep, show ((some true : Option Bool) == some true) = true from rfl]

theorem flatMap_congr_mem {α β : Type} (l : List α) (f g : α → List β)
    (h : ∀ a ∈ l, f a = g a) : l.flatMap f = l.flatMap g := by
  induction l with
  | nil => rfl
  | cons a l ih =>
    rw [List.flatMap_cons, List.flatMap_cons, h a (List.mem_cons_self a l),
      ih (fun b hb => h b (List.mem_cons_of_mem a hb))]

theorem filter_map_eq_flatMap {α β : Type} (l : List α) (p : α → Bool) (f : α → β) :
    (l.filter p).map f = l.flatMap (fun a => if p a then [f a] else []) := by
  induction l with
  | nil => rfl
  | cons a l ih =>
    rw [List.filter_cons, List.flatMap_cons, ← ih]
    cases hp : p a with
    | true => simp
    | false => simp

/-- Claim C2: For `1 ≤ len(pattern) ≤ len(text)`, the `FullMatch` steps of
`naive_search_steps` carry, in increasing order, exactly the indices `i`
in `[0, n-m]` at which `pattern` occurs in `text` (overlaps all counted),
and their number equals the number of such occurrences. -/
theorem fullMatch_occurrences (text pattern : List Char)
    (h1 : 1 ≤ pattern.length) (h2 : pattern.length ≤ text.length) :
    ((naive_search_steps text pattern).filter
        (fun s => s.matchv == some true)).map (fun s => s.found_indices)
      = ((List.range (text.length - pattern.length + 1)).filter
          (occursAt text pattern)).map (fun i => [i])
    ∧ ((naive_search_steps text pattern).filter
        (fun s => s.matchv == some true)).length
      = ((List.range (text.length - pattern.length + 1)).filter
          (occursAt text pattern)).length := by
  have hmain : ((naive_search_steps text pattern).filter
        (fun s => s.matchv == some true)).map (fun s => s.found_indices)
      = ((List.range (text.length - pattern.length + 1)).filter
          (occursAt text pattern)).map (fun i => [i]) := by
    rw [naive_search_steps_eq_specTrace text pattern h1 h2, specTrace,
      List.filter_flatMap, List.map_flatMap,
      filter_map_eq_flatMap (List.range (text.length - pattern.length + 1))
        (occursAt text pattern) (fun i => [i])]
    apply flatMap_congr_mem
    intro i hi
    have hiK : i < text.length - pattern.length + 1 := List.mem_range.mp hi
    have hle : i + pattern.length ≤ text.length := by omega
    rw [filter_fullMatch_specShiftTrace]
    by_cases hocc : occursAt text pattern i = true
    · rw [if_pos ((firstMismatch_eq_none_iff text pattern i hle).mpr hocc),
        if_pos hocc]
      simp [fullMatchStep]
    · have hno : ¬ firstMismatch text pattern i = none := fun hn =>
        hocc ((firstMismatch_eq_none_iff text pattern i hle).mp hn)
      rw [if_neg hno, if_neg hocc]
      rfl
  refine ⟨hmain, ?_⟩
  have hlen := congrArg List.length hmain
  simpa using hlen

/-- Witness for C2 at `text = "AAAA"`, `pattern = "AA"` (overlapping
occurrences at 0, 1, 2). -/
theorem fullMatch_occurrences_witness :
    ((naive_search_steps "AAAA".data "AA".data).filter
        (fun s => s.matchv == some true)).map (fun s => s.found_indices)
      = ((List.range ("AAAA".data.length - "AA".data.length + 1)).filter
          (occursAt "AAAA".data "AA".data)).map (fun i => [i])
    ∧ ((naive_search_steps "AAAA".data "AA".data).filter
        (fun s => s.matchv == some true)).length
      = ((List.range ("AAAA".data.length - "AA".data.length + 1)).filter
          (occursAt "AAAA".data "AA".data)).length :=
  fullMatch_occurrences "AAAA".data "AA".data (by decide) (by decide)

/-! ### Classification of generated steps (C10) -/

theorem mem_scanAux (text pattern : List Char) (i : Nat) :
    ∀ fuel j st, st ∈ scanAux text pattern i j fuel →
      (∃ k, st = pendingStep i k) ∨ (∃ k, st = mismatchStep i k)
        ∨ st = fullMatchStep i pattern.length := by
  intro fuel
  induction fuel with
  | zero =>
    intro j st h
    rw [scanAux] at h
    simp only [List.mem_singleton] at h
    exact Or.inr (Or.inr h)
  | succ fuel ih =>
    intro j st h
    rw [scanAux] at h
    by_cases hcmp : text.getD (i + j) ' ' ≠ pattern.getD j ' '
    · rw [if_pos hcmp] at h
      rcases List.mem_cons.mp h with h | h
      · exact Or.inl ⟨j, h⟩
      · exact Or.inr (Or.inl ⟨j, by simpa using h⟩)
    · rw [if_neg hcmp] at h
      rcases List.mem_cons.mp h with h | h
      · exact Or.inl ⟨j, h⟩
      · exact ih (j + 1) st h

theorem mem_naive_search_steps (text pattern : List Char) (st : Step)
    (h : st ∈ naive_search_steps text pattern) :
    ∃ i, (∃ k, st = pendingStep i k) ∨ (∃ k, st = mismatchStep i k)
      ∨ st = fullMatchStep i pattern.length := by
  rw [naive_search_steps] at h
  by_cases hg : pattern.length = 0 ∨ text.length < pattern.length
  · rw [if_pos hg] at h
    exact absurd h (List.not_mem_nil st)
  · rw [if_neg hg] at h
    obtain ⟨i, _, hmem⟩ := List.mem_flatMap.mp h
    rw [scanShift] at hmem
    exact ⟨i, mem_scanAux text pattern i pattern.length 0 st hmem⟩

/-- Claim C10: Every step of `naive_search_steps` with `match = True` carries
`found_indices = [shift]` (in particular non-empty), and every step with
`match = None` or `False` carries `found_indices = []`; hence the
`found_indices[0]` accesses in `status_text` and `render_visual` are applied
to a non-empty list on every generated full-match step. -/
theorem found_indices_sound (text pattern : List Char) (st : Step)
    (h : st ∈ naive_search_steps text pattern) :
    (st.matchv = some true → st.found_indices = [st.shift] ∧ st.found_indices ≠ [])
      ∧ (st.matchv ≠ some true → st.found_indices = []) := by
  obtain ⟨i, hc⟩ := mem_naive_search_steps text pattern st h
  rcases hc with ⟨k, rfl⟩ | ⟨k, rfl⟩ | rfl
  · exact ⟨fun hmt => by simp [pendingStep] at hmt, fun _ => rfl⟩
  · exact ⟨fun hmt => by simp [mismatchStep] at hmt, fun _ => rfl⟩
  · exact ⟨fun _ => ⟨rfl, by simp [fullMatchStep]⟩, fun hmt => absurd rfl hmt⟩

/-- Witness for C10 at the full-match step of `text = "AB"`,
`pattern = "B"`. -/
theorem found_indices_sound_witness :
    ((fullMatchStep 1 1).matchv = some true →
        (fullMatchStep 1 1).found_indices = [(fullMatchStep 1 1).shift]
          ∧ (fullMatchStep 1 1).found_indices ≠ [])
      ∧ ((fullMatchStep 1 1).matchv ≠ some true →
        (fullMatchStep 1 1).found_indices = []) :=
  found_indices_sound "AB".data "B".data (fullMatchStep 1 1) (by decide)

/-! ### Monotonicity of the emitted trace (C3) -/

theorem shift_of_mem_specShiftTrace (text pattern : List Char) (i : Nat)
    (st : Step) (h : st ∈ specShiftTrace text pattern i) : st.shift = i := by
  rw [← scanShift_eq_specShiftTrace, scanShift] at h
  rcases mem_scanAux text pattern i pattern.length 0 st h with
    ⟨k, rfl⟩ | ⟨k, rfl⟩ | rfl <;> rfl

theorem filter_shift_eq_of_ne (text pattern : List Char) (P : Step → Bool)
    (i i' : Nat) (hne : i ≠ i') :
    (specShiftTrace text pattern i').filter (fun s => s.shift == i && P s) = [] := by
  rw [List.filter_eq_nil_iff]
  intro st hst
  have hs := shift_of_mem_specShiftTrace text pattern i' st hst
  simp [hs, Ne.symm hne]

theorem filter_shift_eq_of_eq (text pattern : List Char) (P : Step → Bool)
    (i : Nat) :
    (specShiftTrace text pattern i).filter (fun s => s.shift == i && P s)
      = (specShiftTrace text pattern i).filter P := by
  apply List.filter_congr
  intro st hst
  have hs := shift_of_mem_specShiftTrace text pattern i st hst
  simp [hs]

theorem filter_shift_flatMap (text pattern : List Char) (P : Step → Bool)
    (K i : Nat) :
    (((List.range K).flatMap (specShiftTrace text pattern)).filter
        (fun s => s.shift == i && P s))
      = if i < K then (specShiftTrace text pattern i).filter P else [] := by
  induction K with
  | zero => simp
  | succ K ih =>
    rw [List.range_succ, List.flatMap_append, List.filter_append, ih]
    by_cases hiK : i < K
    · rw [if_pos hiK, if_pos (by omega)]
      simp [filter_shift_eq_of_ne text pattern P i K (by omega)]
    · by_cases hiK2 : i = K
      · subst hiK2
        rw [if_neg hiK, if_pos (by omega)]
        simp [filter_shift_eq_of_eq text pattern P i]
      · rw [if_neg hiK, if_neg (by omega)]
        simp [filter_shift_eq_of_ne text pattern P i K hiK2]

theorem filter_map_pending_all (i : Nat) (l : List Nat) (P : Step → Bool)
    (hP : ∀ j, P (pendingStep i j) = true) :
    (l.map (pendingStep i)).filter P = l.map (pendingStep i) := by
  rw [List.filter_eq_self]
  intro st hst
  obtain ⟨j, _, rfl⟩ := List.mem_map.mp hst
  exact hP j

theorem map_pattern_idx_pending (i : Nat) (l : List Nat) :
    l.map ((fun s => s.pattern_idx) ∘ pendingStep i) = l := by
  induction l with
  | nil => rfl
  | cons a l ih => simp [Function.comp, pendingStep, ih]

theorem pattern_idx_nonFull (text pattern : List Char) (i : Nat) :
    ((specShiftTrace text pattern i).filter
        (fun s => s.matchv != some true)).map (fun s => s.pattern_idx)
      = match firstMismatch text pattern i with
        | some j0 => List.range (j0 + 1) ++ [j0]
        | none => List.range pattern.length := by
  cases hf : firstMismatch text pattern i with
  | some j0 =>
    rw [specShiftTrace, hf]
    simp only [List.filter_append,
      filter_map_pending_all i (List.range (j0 + 1))
        (fun s => s.matchv != some true) (fun j => rfl)]
    simp [List.filter_cons, mismatchStep, List.map_map, map_pattern_idx_pending,
      show ((some false : Option Bool) != some true) = true from rfl]
  | none =>
    rw [specShiftTrace, hf]
    simp only [List.filter_append,
      filter_map_pending_all i (List.range pattern.length)
        (fun s => s.matchv != some true) (fun j => rfl)]
    simp [List.filter_cons, fullMatchStep, List.map_map, map_pattern_idx_pending,
      show ((some true : Option Bool) != some true) = false from rfl]

theorem pattern_idx_pending (text pattern : List Char) (i : Nat) :
    ((specShiftTrace text pattern i).filter
        (fun s => s.matchv == none)).map (fun s => s.pattern_idx)
      = match firstMismatch text pattern i with
        | some j0 => List.range (j0 + 1)
        | none => List.range pattern.length := by
  cases hf : firstMismatch text pattern i with
  | some j0 =>
    rw [specShiftTrace, hf]
    simp only [List.filter_append,
      filter_map_pending_all i (List.range (j0 + 1))
        (fun s => s.matchv == none) (fun j => rfl)]
    simp [List.filter_cons, mismatchStep, List.map_map, map_pattern_idx_pending,
      show ((some false : Option Bool) == none) = false from rfl]
  | none =>
    rw [specShiftTrace, hf]
    simp only [List.filter_append,
      filter_map_pending_all i (List.range pattern.length)
        (fun s => s.matchv == none) (fun j => rfl)]
    simp [List.filter_cons, fullMatchStep, List.map_map, map_pattern_idx_pending,
      show ((some true : Option Bool) == none) = false from rfl]

theorem chain_le_range (n : Nat) :
    List.Chain' (fun a b => a ≤ b) (List.range n) :=
  List.Pairwise.chain' ((List.pairwise_lt_range n).imp (fun h => Nat.le_of_lt h))

theorem chain_le_range_append (n : Nat) :
    List.Chain' (fun a b => a ≤ b) (List.range (n + 1) ++ [n]) := by
  apply List.Chain'.append (chain_le_range (n + 1)) (List.chain'_singleton n)
  intro x hx y hy
  rw [List.range_succ, List.getLast?_concat] at hx
  simp only [Option.mem_def, Option.some.injEq] at hx
  simp only [List.head?_cons, Option.mem_def, Option.some.injEq] at hy
  omega

theorem chain_const (l : List Nat) (c : Nat) (h : ∀ x ∈ l, x = c) :
    List.Chain' (fun a b => a ≤ b) l := by
  induction l with
  | nil => exact List.chain'_nil
  | cons a l ih =>
    cases l with
    | nil => simp
    | cons b l' =>
      rw [List.chain'_cons]
      refine ⟨?_, ih (fun x hx => h x (List.mem_cons_of_mem a hx))⟩
      rw [h a (by simp), h b (by simp)]

theorem shift_lt_of_mem_flatMap (text pattern : List Char) (K : Nat) (x : Nat)
    (hx : x ∈ ((List.range K).flatMap (specShiftTrace text pattern)).map
        (fun s => s.shift)) : x < K := by
  obtain ⟨st, hst, rfl⟩ := List.mem_map.mp hx
  obtain ⟨i', hi', hmem⟩ := List.mem_flatMap.mp hst
  rw [shift_of_mem_specShiftTrace text pattern i' st hmem]
  exact List.mem_range.mp hi'

theorem chain_shift_flatMap (text pattern : List Char) (K : Nat) :
    List.Chain' (fun a b => a ≤ b)
      (((List.range K).flatMap (specShiftTrace text pattern)).map
        (fun s => s.shift)) := by
  induction K with
  | zero => simp
  | succ K ih =>
    rw [List.range_succ, List.flatMap_append, List.map_append]
    apply List.Chain'.append ih
    · apply chain_const _ K
      intro x hx
      simp only [List.flatMap_cons, List.flatMap_nil, List.append_nil] at hx
      obtain ⟨st, hst, rfl⟩ := List.mem_map.mp hx
      exact shift_of_mem_specShiftTrace text pattern K st hst
    · intro x hx y hy
      have hxl : x ∈ ((List.range K).flatMap (specShiftTrace text pattern)).map
          (fun s => s.shift) := List.mem_of_mem_getLast? hx
      have hx' := shift_lt_of_mem_flatMap text pattern K x hxl
      have hy' : y = K := by
        have hym : y ∈ (([K].flatMap (specShiftTrace text pattern)).map
            (fun s => s.shift)) := List.mem_of_mem_head? hy
        simp only [List.flatMap_cons, List.flatMap_nil, List.append_nil] at hym
        obtain ⟨st, hst, rfl⟩ := List.mem_map.mp hym
        exact shift_of_mem_specShiftTrace text pattern K st hst
      omega

/-- Counterexample to C3 as stated: for `text = "AB"`, `pattern = "B"`, the
Pending/Mismatch steps sharing shift 0 have `pattern_idx` values `[0, 0]`
(the Mismatch step repeats the `pattern_idx` of the Pending step before
it), which is not strictly increasing. -/
theorem trace_strict_increase_counterexample :
    ¬ List.Chain' (fun a b => a < b)
      (((naive_search_steps "AB".data "B".data).filter
          (fun s => s.shift == 0 && s.matchv != some true)).map
        (fun s => s.pattern_idx)) := by
  have h : ((naive_search_steps "AB".data "B".data).filter
      (fun s => s.shift == 0 && s.matchv != some true)).map
        (fun s => s.pattern_idx) = [0, 0] := by decide
  rw [h]
  simp [List.chain'_cons]

/-- Claim C3, amended: Across `naive_search_steps text pattern` the `shift`
field is non-decreasing; within the sub-sequence of steps sharing one shift
value, the `pattern_idx` values of the Pending/Mismatch steps are
non-decreasing starting at 0, and strictly increasing (equal to
`0, 1, 2, ...`) when restricted to the Pending steps alone — a Mismatch
step repeats the `pattern_idx` of the Pending step preceding it, so the
combined sequence is not strictly increasing. -/
theorem trace_monotone (text pattern : List Char) (i : Nat) :
    List.Chain' (fun a b => a ≤ b)
        ((naive_search_steps text pattern).map (fun s => s.shift))
    ∧ List.Chain' (fun a b => a ≤ b)
        (((naive_search_steps text pattern).filter
            (fun s => s.shift == i && s.matchv != some true)).map
          (fun s => s.pattern_idx))
    ∧ (((naive_search_steps text pattern).filter
            (fun s => s.shift == i && s.matchv != some true)).map
          (fun s => s.pattern_idx) ≠ [] →
        ((((naive_search_steps text pattern).filter
            (fun s => s.shift == i && s.matchv != some true)).map
          (fun s => s.pattern_idx)).head? = some 0))
    ∧ ((naive_search_steps text pattern).filter
          (fun s => s.shift == i && s.matchv == none)).map (fun s => s.pattern_idx)
        = List.range (((naive_search_steps text pattern).filter
            (fun s => s.shift == i && s.matchv == none)).length) := by
  by_cases hg : pattern.length = 0 ∨ text.length < pattern.length
  · rw [naive_search_steps, if_pos hg]
    simp
  · rw [naive_search_steps, if_neg hg,
      show (fun i => scanShift text pattern i) = specShiftTrace text pattern from
        funext fun i' => scanShift_eq_specShiftTrace text pattern i']
    push_neg at hg
    have hm : 1 ≤ pattern.length := by omega
    refine ⟨chain_shift_flatMap text pattern _, ?_, ?_, ?_⟩
    · rw [filter_shift_flatMap]
      by_cases hiK : i < text.length - pattern.length + 1
      · rw [if_pos hiK, pattern_idx_nonFull]
        cases hf : firstMismatch text pattern i with
        | some j0 => exact chain_le_range_append j0
        | none => exact chain_le_range pattern.length
      · rw [if_neg hiK]
        simp
    · rw [filter_shift_flatMap]
      by_cases hiK : i < text.length - pattern.length + 1
      · rw [if_pos hiK, pattern_idx_nonFull]
        cases hf : firstMismatch text pattern i with
        | some j0 =>
          intro _
          simp [List.range_succ_eq_map]
        | none =>
          intro hne
          cases hml : pattern.length with
          | zero => omega
          | succ m' => simp [hml, List.range_succ_eq_map]
      · rw [if_neg hiK]
        intro hne
        simp at hne
    · rw [filter_shift_flatMap]
      by_cases hiK : i < text.length - pattern.length + 1
      · rw [if_pos hiK]
        have hlen : ((specShiftTrace text pattern i).filter
            (fun s => s.matchv == none)).length
              = (match firstMismatch text pattern i with
                | some j0 => List.range (j0 + 1)
                | none => List.range pattern.length).length := by
          rw [← pattern_idx_pending text pattern i, List.length_map]
        rw [pattern_idx_pending, hlen]
        cases hf : firstMismatch text pattern i with
        | some j0 => rw [List.length_range]
        | none => rw [List.length_range]
      · rw [if_neg hiK]
        simp

/-- Witness for the amended C3 at `text = "AB"`, `pattern = "B"`, shift 0:
the Pending/Mismatch sub-sequence is non-empty and its first `pattern_idx`
is 0. -/
theorem trace_monotone_witness :
    ((((naive_search_steps "AB".data "B".data).filter
        (fun s => s.shift == 0 && s.matchv != some true)).map
      (fun s => s.pattern_idx)).head? = some 0) :=
  (trace_monotone "AB".data "B".data 0).2.2.1 (by decide)

/-- Claim C5: For every text and pattern with `len(pattern) = 0` or
`len(text) < len(pattern)`, `naive_search_steps` returns the empty
sequence. -/
theorem naive_search_steps_empty (text pattern : List Char)
    (h : pattern.length = 0 ∨ text.length < pattern.length) :
    naive_search_steps text pattern = [] := by
  rw [naive_search_steps, if_pos h]

/-- Witness for C5 at `text = "A"`, `pattern = ""` (and the guard also at
`text = ""`). -/
theorem naive_search_steps_empty_witness :
    (("" : String).data.length = 0 ∨ ("A".data).length < ("".data).length) ∧
      naive_search_steps "A".data "".data = [] :=
  ⟨by decide, naive_search_steps_empty "A".data "".data (by decide)⟩

/-- Claim C9: `naive_search_steps` is deterministic: two calls with equal
inputs return structurally equal step sequences (same length, equal records
at every position). -/
theorem naive_search_steps_deterministic (t1 p1 t2 p2 : List Char)
    (ht : t1 = t2) (hp : p1 = p2) :
    naive_search_steps t1 p1 = naive_search_steps t2 p2 ∧
      (naive_search_steps t1 p1).length = (naive_search_steps t2 p2).length := by
  subst ht
  subst hp
  exact ⟨rfl, rfl⟩

/-- Witness for C9 at `text = "AAAA"`, `pattern = "AA"`. -/
theorem naive_search_steps_deterministic_witness :
    naive_search_steps "AAAA".data "AA".data
        = naive_search_steps "AAAA".data "AA".data ∧
      (naive_search_steps "AAAA".data "AA".data).length
        = (naive_search_steps "AAAA".data "AA".data).length :=
  naive_search_steps_deterministic "AAAA".data "AA".data "AAAA".data "AA".data
    rfl rfl

/-! ### Start validation (C6) -/

/-- Claim C6: A start command with empty text, empty pattern, or pattern
longer than text is rejected with an error message, and every session field
(`steps`, `step_idx`, `found_indices`, `started`, `complete`) keeps its
previous value — in particular a `NotStarted` session stays `NotStarted`. -/
theorem startSearch_invalid (s : Session) (text pattern : List Char)
    (h : text = [] ∨ pattern = [] ∨ pattern.length > text.length) :
    (startSearch s text pattern).1 = s
      ∧ (startSearch s text pattern).2.isSome = true := by
  rcases h with h | h | h
  · subst h
    rw [startSearch, if_pos (by simp)]
    exact ⟨rfl, rfl⟩
  · subst h
    rw [startSearch, if_pos (by simp)]
    exact ⟨rfl, rfl⟩
  · rw [startSearch]
    by_cases he : (text.isEmpty || pattern.isEmpty) = true
    · rw [if_pos he]
      exact ⟨rfl, rfl⟩
    · rw [if_neg he, if_pos h]
      exact ⟨rfl, rfl⟩

/-- Witness for C6: starting with an empty pattern is rejected and the
fresh session is untouched. -/
theorem startSearch_invalid_witness :
    (startSearch initSession "AB".data []).1 = initSession
      ∧ (startSearch initSession "AB".data []).2.isSome = true :=
  startSearch_invalid initSession "AB".data [] (by decide)

/-! ### Walker invariant (C4) -/

theorem collectFound_cons (a : Step) (l : List Step) :
    collectFound (a :: l)
      = (if a.matchv == some true && !a.found_indices.isEmpty
          then a.found_indices else []) ++ collectFound l := by
  rw [collectFound, List.flatMap_cons, collectFound]

theorem collectFound_append (l1 l2 : List Step) :
    collectFound (l1 ++ l2) = collectFound l1 ++ collectFound l2 := by
  rw [collectFound, collectFound, collectFound, List.flatMap_append]

theorem collectFound_singleton (st : Step) :
    collectFound [st]
      = (if st.matchv == some true && !st.found_indices.isEmpty
          then st.found_indices else []) := by
  rw [collectFound_cons]
  simp [collectFound]

theorem collectFound_eq (l : List Step) :
    collectFound l
      = (l.filter (fun st => st.matchv == some true)).flatMap
          (fun st => st.found_indices) := by
  induction l with
  | nil => rfl
  | cons a l ih =>
    rw [collectFound_cons, List.filter_cons, ih]
    cases hm : (a.matchv == some true) with
    | false => simp
    | true =>
      cases hf : a.found_indices.isEmpty with
      | false => simp
      | true =>
        have ha : a.found_indices = [] := by
          cases hfa : a.found_indices with
          | nil => rfl
          | cons x xs => rw [hfa] at hf; simp at hf
        simp [ha]

theorem collectFound_take_succ (T : List Step) (k : Nat) (hk : k < T.length) :
    collectFound (T.take (k + 1))
      = collectFound (T.take k)
        ++ (if T[k].matchv == some true && !T[k].found_indices.isEmpty
            then T[k].found_indices else []) := by
  rw [List.take_succ, List.getElem?_eq_getElem hk, collectFound_append]
  simp [collectFound_singleton]

theorem nextStep_iterate (T : List Step) :
    ∀ k, k ≤ T.length →
      nextStep^[k] ⟨T, some (-1), [], true, false⟩
        = ⟨T, some ((k : Int) - 1), collectFound (T.take k), true, false⟩ := by
  intro k
  induction k with
  | zero =>
    intro _
    simp [collectFound]
  | succ k ih =>
    intro hk
    rw [Function.iterate_succ_apply', ih (by omega)]
    have hklt : k < T.length := by omega
    have hidx : ((k : Int) - 1) < (T.length : Int) - 1 := by omega
    have htoNat : ((k : Int) - 1 + 1).toNat = k := by omega
    have hget : T.getD k (pendingStep 0 0) = T[k] := by
      rw [List.getD_eq_getElem?_getD, List.getElem?_eq_getElem hklt]
      rfl
    have harith : (k : Int) - 1 + 1 = ((k + 1 : Nat) : Int) - 1 := by omega
    have hget2 : T[k]?.getD (pendingStep 0 0) = T[k] := by
      rw [List.getElem?_eq_getElem hklt]
      rfl
    rw [collectFound_take_succ T k hklt]
    by_cases hcond : T[k].matchv = some true ∧ T[k].found_indices ≠ []
    · simp [nextStep, hidx, htoNat, hget2, harith, hcond]
    · simp [nextStep, hidx, htoNat, hget2, harith, hcond]

/-- Claim C4: After a successful start, `k` advance commands (for any
`k ≤ len(steps)`) put the cursor at `k - 1`, and after a full traversal
(`k = len(steps)`) `found_indices` equals the concatenation, in emitted
order, of the `found_indices` carried by the `FullMatch` steps of the
generated sequence. -/
theorem walker_invariant (s0 : Session) (text pattern : List Char)
    (htext : text ≠ []) (hpat : pattern ≠ [])
    (hlen : pattern.length ≤ text.length) (k : Nat)
    (hk : k ≤ (startSearch s0 text pattern).1.steps.length) :
    (nextStep^[k] (startSearch s0 text pattern).1).step_idx
        = some ((k : Int) - 1)
    ∧ (nextStep^[(startSearch s0 text pattern).1.steps.length]
          (startSearch s0 text pattern).1).found_indices
        = ((startSearch s0 text pattern).1.steps.filter
            (fun st => st.matchv == some true)).flatMap
          (fun st => st.found_indices) := by
  have hA : ¬ (text.isEmpty || pattern.isEmpty) = true := by
    simp [List.isEmpty_iff, htext, hpat]
  have hB : ¬ pattern.length > text.length := by omega
  have hs : (startSearch s0 text pattern).1
      = ⟨naive_search_steps text pattern, some (-1), [], true, false⟩ := by
    rw [startSearch, if_neg hA, if_neg hB]
  rw [hs] at hk ⊢
  constructor
  · rw [nextStep_iterate (naive_search_steps text pattern) k hk]
  · rw [nextStep_iterate (naive_search_steps text pattern) _ (le_refl _),
      List.take_length]
    exact collectFound_eq (naive_search_steps text pattern)

/-- Witness for C4 at `text = "AB"`, `pattern = "B"`, `k = 2`. -/
theorem walker_invariant_witness :
    (nextStep^[2] (startSearch initSession "AB".data "B".data).1).step_idx
        = some ((2 : Int) - 1)
    ∧ (nextStep^[(startSearch initSession "AB".data "B".data).1.steps.length]
          (startSearch initSession "AB".data "B".data).1).found_indices
        = ((startSearch initSession "AB".data "B".data).1.steps.filter
            (fun st => st.matchv == some true)).flatMap
          (fun st => st.found_indices) :=
  walker_invariant initSession "AB".data "B".data (by decide) (by decide)
    (by decide) 2 (by decide)

/-! ### Completion behaviour (C7) -/

theorem completionSummary_not_complete (s : Session)
    (h : s.complete = false) : completionSummary s = none := by
  rw [completionSummary]
  by_cases hs : s.started = true
  · rw [if_neg (by simp [hs])]
    cases hidx : s.step_idx with
    | none => rfl
    | some idx =>
      by_cases hge : idx ≥ (s.steps.length : Int) - 1
      · simp [hge, h]
      · simp [hge]
  · rw [if_pos (by simp [Bool.not_eq_true] at hs ⊢; exact hs)]

/-- Claim C7: With the cursor on the last step of a started, not-yet-complete
session, one further advance only sets `complete` — cursor, steps and
`found_indices` are unchanged — and the summary (all found indices, or
"not found" when none) is reported exactly in the completed state: nothing
is shown before the extra press, and a summary shown implies `complete`. -/
theorem advance_past_end (s : Session) (hstart : s.started = true)
    (hncomp : s.complete = false) (hne : s.steps ≠ [])
    (hidx : s.step_idx = some ((s.steps.length : Int) - 1)) :
    nextStep s = { s with complete := true }
    ∧ completionSummary s = none
    ∧ completionSummary (nextStep s)
        = some (if s.found_indices.isEmpty
            then "Search complete. Pattern not found."
            else "Search complete. Pattern found at indices: "
              ++ toString s.found_indices)
    ∧ (∀ s' : Session, (completionSummary s').isSome = true →
        s'.complete = true) := by
  have h1 : nextStep s = { s with complete := true } := by
    simp [nextStep, hstart, hncomp, hidx, lt_irrefl]
  refine ⟨h1, completionSummary_not_complete s hncomp, ?_, ?_⟩
  · rw [h1]
    have hcnd : ((s.steps.length : Int)) ≤ ((s.steps.length : Int)) - 1 + 1 := by
      omega
    cases hf : s.found_indices.isEmpty with
    | true =>
      have hfe : s.found_indices = [] := List.isEmpty_iff.mp hf
      simp [completionSummary, hstart, hidx, hf, hfe, hcnd]
    | false => simp [completionSummary, hstart, hidx, hf, hcnd]
  · intro s' h
    cases hcc : s'.complete with
    | true => rfl
    | false =>
      rw [completionSummary_not_complete s' hcc] at h
      simp at h

/-- Witness for C7 at the concrete session `demoSession` (cursor on the
last of the four steps of `text = "AB"`, `pattern = "B"`). -/
theorem advance_past_end_witness :
    nextStep demoSession = { demoSession with complete := true }
    ∧ completionSummary demoSession = none
    ∧ completionSummary (nextStep demoSession)
        = some (if demoSession.found_indices.isEmpty
            then "Search complete. Pattern not found."
            else "Search complete. Pattern found at indices: "
              ++ toString demoSession.found_indices)
    ∧ (∀ s' : Session, (completionSummary s').isSome = true →
        s'.complete = true) :=
  advance_past_end demoSession (by decide) (by decide) (by decide) (by decide)

/-! ### Highlighting policy (C8) -/

theorem prevFoundPos_iff (found : List Nat) (m idx : Nat) :
    prevFoundPos found m idx = true ↔ ∃ f ∈ found, f ≤ idx ∧ idx < f + m := by
  rw [prevFoundPos, List.any_eq_true]
  constructor
  · rintro ⟨fi, hfi, hh⟩
    rw [List.any_eq_true] at hh
    obtain ⟨k, hk, hik⟩ := hh
    rw [List.mem_range] at hk
    rw [beq_iff_eq] at hik
    exact ⟨fi, hfi, by omega⟩
  · rintro ⟨f, hf, h1, h2⟩
    refine ⟨f, hf, ?_⟩
    rw [List.any_eq_true]
    refine ⟨idx - f, List.mem_range.mpr (by omega), ?_⟩
    rw [beq_iff_eq]
    omega

/-- Claim C8: For every render call with a generated step present: a pattern
cell whose absolute column lies within the text's columns receives exactly
the spec's highlight (`Comparing`/`Mismatch` at `pattern_index`, `Match` on
every pattern cell of a full match, default otherwise), and every text cell
receives exactly the spec's single highlight (`Comparing`/`Mismatch` at
`text_index` overriding `Found`, `Match` on the just-discovered match
overriding `Found`, `Found` inside previously-found ranges, default
elsewhere). -/
theorem render_highlights (text pattern : List Char) (st : Step)
    (hmem : st ∈ naive_search_steps text pattern) (found_so_far : List Nat) :
    (∀ i, i < pattern.length → st.shift + i < text.length →
      patternCellClasses (renderInfo (some st)) i
        = hlClasses (specPatternHighlight st i))
    ∧ (∀ i, i < text.length →
      textCellClasses (renderInfo (some st)) found_so_far pattern.length i
        = hlClasses (specTextHighlight st found_so_far pattern.length i)) := by
  constructor
  · intro i hi hcol
    cases hmv : st.matchv with
    | none =>
      by_cases hpi : i = st.pattern_idx
      · simp [patternCellClasses, renderInfo, specPatternHighlight, hlClasses,
          hmv, hpi]
      · simp [patternCellClasses, renderInfo, specPatternHighlight, hlClasses,
          hmv, hpi]
    | some b =>
      cases b with
      | false =>
        by_cases hpi : i = st.pattern_idx
        · simp [patternCellClasses, renderInfo, specPatternHighlight, hlClasses,
            hmv, hpi]
        · simp [patternCellClasses, renderInfo, specPatternHighlight, hlClasses,
            hmv, hpi]
      | true =>
        simp [patternCellClasses, renderInfo, specPatternHighlight, hlClasses,
          hmv]
  · intro i hi
    obtain ⟨i0, hcl⟩ := mem_naive_search_steps text pattern st hmem
    rcases hcl with ⟨k, rfl⟩ | ⟨k, rfl⟩ | rfl
    · by_cases hti : i = i0 + k
      · simp [textCellClasses, renderInfo, pendingStep, specTextHighlight,
          hlClasses, hti]
      · by_cases hex : ∃ f ∈ found_so_far, f ≤ i ∧ i < f + pattern.length
        · simp [textCellClasses, renderInfo, pendingStep, specTextHighlight,
            hlClasses, hti, hex, prevFoundPos_iff]
        · simp [textCellClasses, renderInfo, pendingStep, specTextHighlight,
            hlClasses, hti, hex, prevFoundPos_iff]
    · by_cases hti : i = i0 + k
      · simp [textCellClasses, renderInfo, mismatchStep, specTextHighlight,
          hlClasses, hti]
      · by_cases hex : ∃ f ∈ found_so_far, f ≤ i ∧ i < f + pattern.length
        · simp [textCellClasses, renderInfo, mismatchStep, specTextHighlight,
            hlClasses, hti, hex, prevFoundPos_iff]
        · simp [textCellClasses, renderInfo, mismatchStep, specTextHighlight,
            hlClasses, hti, hex, prevFoundPos_iff]
    · have hbridge : (∃ k, k < pattern.length ∧ i = i0 + k)
          ↔ (i0 ≤ i ∧ i < i0 + pattern.length) := by
        constructor
        · rintro ⟨k, hk, rfl⟩
          omega
        · rintro ⟨h1, h2⟩
          exact ⟨i - i0, by omega, by omega⟩
      by_cases hcm : i0 ≤ i ∧ i < i0 + pattern.length
      · simp [textCellClasses, renderInfo, fullMatchStep, currentMatchPos,
          specTextHighlight, hlClasses, List.any_eq_true, List.mem_range,
          hbridge, hcm]
      · by_cases hex : ∃ f ∈ found_so_far, f ≤ i ∧ i < f + pattern.length
        · simp [textCellClasses, renderInfo, fullMatchStep, currentMatchPos,
            specTextHighlight, hlClasses, List.any_eq_true, List.mem_range,
            hbridge, hcm, hex, prevFoundPos_iff]
        · simp [textCellClasses, renderInfo, fullMatchStep, currentMatchPos,
            specTextHighlight, hlClasses, List.any_eq_true, List.mem_range,
            hbridge, hcm, hex, prevFoundPos_iff]

/-- Witness for C8: on the full-match step of `text = "AB"`,
`pattern = "B"`, with an earlier match recorded at 0, text cell 1 gets the
spec's highlight. -/
theorem render_highlights_witness :
    textCellClasses (renderInfo (some (fullMatchStep 1 1))) [0]
        ("B".data).length 1
      = hlClasses (specTextHighlight (fullMatchStep 1 1) [0]
          ("B".data).length 1) :=
  (render_highlights "AB".data "B".data (fullMatchStep 1 1)
    (by decide) [0]).2 1 (by decide)

end NaiveSearch
